import Mathlib

/-!
Verification of the pgsql driver of kine: a revisioned, compactable
key-value log over PostgreSQL (`pkg/drivers/pgsql/pgsql.go`).

The embedding models the `kine` table as a list of rows and the SQL
statements configured on the dialect (`CompactSQL`, the `list_from_kine`
stored function backing `GetCurrentSQL` / `ListRevisionStartSQL` /
`GetRevisionAfterSQL`, `CountSQL`, and the upstream inline `listSQL`
variant) as functions over that list.  Error classification
(`TranslateErr`, `ErrCode`), database bootstrap (`createDBIfNotExist`)
and the placeholder renderer (`q`) are modelled as pure functions over
explicit representations of their inputs.
-/

namespace Kine

/-- One row of the `kine` table: `id SERIAL PRIMARY KEY, name, created,
deleted, create_revision, prev_revision, lease, value, old_value`.
Integer columns are modelled as `Nat`, `bytea` payloads as `String`. -/
structure Row where
  id : Nat
  name : String
  created : Nat
  deleted : Nat
  create_revision : Nat
  prev_revision : Nat
  lease : Nat
  value : String
  old_value : String
deriving DecidableEq, Repr

/-- The reserved sentinel key whose `prev_revision` stores the last
compaction boundary. -/
def compactRevKey : String := "compact_rev_key"

/-- SQL `LIKE` matching, fuelled so that it is structurally recursive
(each step consumes one unit of fuel and shrinks `ps ++ s`, so
`|ps| + |s| + 1` units always suffice): `%` matches any sequence, `_`
matches exactly one character, every other pattern character matches
itself. -/
def likeFuel : Nat → List Char → List Char → Bool
  | 0, _, _ => false
  | _ + 1, [], [] => true
  | _ + 1, [], _ :: _ => false
  | f + 1, '%' :: ps, [] => likeFuel f ps []
  | f + 1, '%' :: ps, c :: cs => likeFuel f ps (c :: cs) || likeFuel f ('%' :: ps) cs
  | _ + 1, '_' :: _, [] => false
  | f + 1, '_' :: ps, _ :: cs => likeFuel f ps cs
  | _ + 1, _ :: _, [] => false
  | f + 1, p :: ps, c :: cs => p == c && likeFuel f ps cs

/-- SQL `LIKE` matching on character lists. -/
def likeChars (ps s : List Char) : Bool :=
  likeFuel (ps.length + s.length + 1) ps s

/-- `name LIKE pattern` on strings. -/
def likeB (pat s : String) : Bool := likeChars pat.data s.data

/-- `SELECT MAX(rkv.id) FROM kine AS rkv` — `NULL` on an empty table
(SQL `MAX` is insensitive to row order, so structural recursion is a
faithful rendering). -/
def maxIdOpt : List Row → Option Nat
  | [] => none
  | r :: rs =>
    match maxIdOpt rs with
    | none => some r.id
    | some m => some (max r.id m)

/-- `MAX(prev_revision)` over a list of rows — `NULL` on an empty list. -/
def maxPrevOpt : List Row → Option Nat
  | [] => none
  | r :: rs =>
    match maxPrevOpt rs with
    | none => some r.prev_revision
    | some m => some (max r.prev_revision m)

/-- `SELECT MAX(crkv.prev_revision) FROM kine AS crkv WHERE crkv.name =
'compact_rev_key'`. -/
def compactRevOpt (log : List Row) : Option Nat :=
  maxPrevOpt (log.filter (fun r => r.name == compactRevKey))

/-! ## Compaction (`dialect.CompactSQL`)

```
DELETE FROM kine AS kv
USING (
  SELECT kp.prev_revision AS id FROM kine AS kp
  WHERE kp.name != 'compact_rev_key' AND kp.prev_revision != 0 AND kp.id <= $1
  UNION
  SELECT kd.id AS id FROM kine AS kd
  WHERE kd.deleted != 0 AND kd.id <= $2
) AS ks
WHERE kv.id = ks.id
```
Both placeholders receive the compaction boundary revision. -/

/-- Membership of `i` in the derived table `ks` of `CompactSQL`,
evaluated against the pre-delete table state. -/
def ksContains (log : List Row) (boundary i : Nat) : Bool :=
  log.any (fun kp =>
    kp.name != compactRevKey && kp.prev_revision != 0 &&
      decide (kp.id ≤ boundary) && kp.prev_revision == i) ||
  log.any (fun kd =>
    kd.deleted != 0 && decide (kd.id ≤ boundary) && kd.id == i)

/-- `CompactSQL` at a boundary revision: the table after deleting the
rows whose `id` appears in `ks`. -/
def compact (boundary : Nat) (log : List Row) : List Row :=
  log.filter (fun kv => !(ksContains log boundary kv.id))

/-! ## `list_from_kine` (stored procedure backing all list queries)

```
SELECT MAX(rkv.id) INTO current_id FROM kine AS rkv;
SELECT MAX(crkv.prev_revision) INTO compact_rev_id FROM kine AS crkv
  WHERE crkv.name = 'compact_rev_key';
RETURN QUERY
  SELECT DISTINCT ON (name) current_id, compact_rev_id, kv.*
  FROM kine AS kv
  WHERE kv.name LIKE p_name_pattern
    AND (p_min_key IS NULL OR kv.name > p_min_key)
    AND kv.id <= p_max_id
    AND (kv.deleted = 0 OR p_include_deleted)
  ORDER BY kv.name, theid DESC
  LIMIT p_result_limit;
```
(`p_min_id` is declared but unused by the procedure body.) -/

/-- The `WHERE` clause of the `RETURN QUERY` of `list_from_kine`. -/
def lfkPred (pat : String) (minKey : Option String) (maxId : Nat)
    (includeDeleted : Bool) (r : Row) : Bool :=
  likeB pat r.name &&
    (match minKey with
     | none => true
     | some k => decide (k < r.name)) &&
    decide (r.id ≤ maxId) &&
    (r.deleted == 0 || includeDeleted)

/-- The row of maximal `id` in a list (`NULL` on the empty list);
realises `ORDER BY ... theid DESC` + `DISTINCT ON` within one name
group. -/
def argmaxId : List Row → Option Row
  | [] => none
  | r :: rs =>
    match argmaxId rs with
    | none => some r
    | some b => if b.id ≤ r.id then some r else some b

/-- Per-name representative: the row of maximal `id` among the rows
named `n`. -/
def bestForName (rows : List Row) (n : String) : Option Row :=
  argmaxId (rows.filter (fun r => r.name == n))

/-- Lexicographic `≤` on character lists, comparing code points. -/
def charListLe : List Char → List Char → Bool
  | [], _ => true
  | _ :: _, [] => false
  | a :: as, b :: bs =>
    if a.toNat < b.toNat then true
    else if b.toNat < a.toNat then false
    else charListLe as bs

/-- Lexicographic `≤` on strings (the `ORDER BY kv.name` order). -/
def strLe (a b : String) : Bool := charListLe a.data b.data

/-- Insertion into a `strLe`-sorted list of strings. -/
def insertStr (s : String) : List String → List String
  | [] => [s]
  | t :: ts => if strLe s t then s :: t :: ts else t :: insertStr s ts

/-- Insertion sort on strings, realising `ORDER BY kv.name`. -/
def sortStrs : List String → List String
  | [] => []
  | s :: ss => insertStr s (sortStrs ss)

/-- `SELECT DISTINCT ON (name) ... ORDER BY name, theid DESC`: one row
per distinct name, the one with the greatest `id`, output ordered by
name ascending. -/
def distinctOnNameMaxId (rows : List Row) : List Row :=
  (sortStrs ((rows.map Row.name).dedup)).filterMap (bestForName rows)

/-- `LIMIT p_result_limit` with `NULL` meaning no limit. -/
def applyLimit (lim : Option Nat) (rows : List Row) : List Row :=
  match lim with
  | none => rows
  | some n => rows.take n

/-- Result shape of `list_from_kine`: the two watermark columns repeated
on every returned row, plus the selected rows. -/
structure ListResult where
  currentId : Option Nat
  compactRevId : Option Nat
  rows : List Row
deriving DecidableEq, Repr

/-- The stored procedure `list_from_kine` (its unused `p_min_id`
argument is omitted). -/
def listFromKine (log : List Row) (pat : String) (minKey : Option String)
    (maxId : Nat) (includeDeleted : Bool) (lim : Option Nat) : ListResult :=
  { currentId := maxIdOpt log
    compactRevId := compactRevOpt log
    rows := applyLimit lim
      (distinctOnNameMaxId (log.filter (lfkPred pat minKey maxId includeDeleted))) }

/-- `dialect.GetCurrentSQL`:
`SELECT * FROM list_from_kine(?, -2147483648, NULL, 2147483647, ?, NULL)`. -/
def getCurrent (log : List Row) (pat : String) (includeDeleted : Bool) : ListResult :=
  listFromKine log pat none 2147483647 includeDeleted none

/-- `dialect.ListRevisionStartSQL`:
`SELECT * FROM list_from_kine(?, -2147483648, NULL, ?, ?, NULL)`. -/
def listRevisionStart (log : List Row) (pat : String) (maxId : Nat)
    (includeDeleted : Bool) : ListResult :=
  listFromKine log pat none maxId includeDeleted none

/-! ## `dialect.CountSQL`

```
SELECT (SELECT MAX(rkv.id) AS id FROM kine AS rkv), COUNT(c.theid)
FROM (
  SELECT DISTINCT ON (name) kv.id AS theid
  FROM kine AS kv
  WHERE kv.name LIKE ? AND (kv.deleted = 0 OR ?)
  ORDER BY kv.name, theid DESC
) c
```
-/

/-- The `WHERE` clause of the inner query of `CountSQL` (note: no `id`
bound, unlike `list_from_kine`). -/
def countPred (pat : String) (includeDeleted : Bool) (r : Row) : Bool :=
  likeB pat r.name && (r.deleted == 0 || includeDeleted)

/-- `CountSQL`: the current maximum `id` together with the number of
rows of the inner `DISTINCT ON (name)` query. -/
def countQuery (log : List Row) (pat : String) (includeDeleted : Bool) :
    Option Nat × Nat :=
  (maxIdOpt log,
   (distinctOnNameMaxId (log.filter (countPred pat includeDeleted))).length)

/-! ## The upstream inline `listSQL` variant

The same source file also carries the join-based query that the stored
procedure replaced:

```
SELECT (SELECT MAX(rkv.id) FROM kine AS rkv),
       (SELECT MAX(crkv.prev_revision) FROM kine AS crkv
          WHERE crkv.name = 'compact_rev_key'),
       kv.*
FROM kine AS kv
JOIN (SELECT MAX(mkv.id) AS id FROM kine AS mkv
      WHERE mkv.name LIKE ? AND mkv.id <= %s AND mkv.id > %s
      GROUP BY mkv.name) AS maxkv ON maxkv.id = kv.id
WHERE kv.deleted = 0 OR ?
ORDER BY lkv.theid ASC
```
Its `GetCurrentSQL` instantiation substitutes `2147483647` for the upper
bound and `-2147483648` for the lower one (no lower bound on `Nat` ids).
Here the `deleted` filter applies AFTER the per-name maximum is taken. -/

/-- Insertion into an `id`-sorted list of rows. -/
def insertById (r : Row) : List Row → List Row
  | [] => [r]
  | t :: ts => if r.id ≤ t.id then r :: t :: ts else t :: insertById r ts

/-- Insertion sort by `id`, realising `ORDER BY lkv.theid ASC`. -/
def sortById : List Row → List Row
  | [] => []
  | r :: rs => insertById r (sortById rs)

/-- The set of per-name maximal ids of the `maxkv` subquery of
`listSQL`. -/
def maxkvIds (log : List Row) (pat : String) (maxId : Nat) : List Nat :=
  let mtch := log.filter (fun m => likeB pat m.name && decide (m.id ≤ maxId))
  ((mtch.map Row.name).dedup).filterMap
    (fun n => (bestForName mtch n).map Row.id)

/-- The upstream `listSQL` query (its `GetCurrentSQL` instantiation):
join the log on the per-name maximal `id`, then filter tombstones. -/
def listSQLQuery (log : List Row) (pat : String) (maxId : Nat)
    (includeDeleted : Bool) : ListResult :=
  { currentId := maxIdOpt log
    compactRevId := compactRevOpt log
    rows := sortById
      ((log.filter (fun kv => (maxkvIds log pat maxId).contains kv.id)).filter
        (fun kv => kv.deleted == 0 || includeDeleted)) }

/-! ## Placeholder renderer `q`

```go
func q(sql string) string {
  regex := regexp.MustCompile(`\?`)
  pref := "$"
  n := 0
  return regex.ReplaceAllStringFunc(sql, func(string) string {
    n++
    return pref + strconv.Itoa(n)
  })
}
```
-/

/-- One decimal digit as a character (`strconv.Itoa` building block). -/
def digitChar : Nat → Char
  | 0 => '0'
  | 1 => '1'
  | 2 => '2'
  | 3 => '3'
  | 4 => '4'
  | 5 => '5'
  | 6 => '6'
  | 7 => '7'
  | 8 => '8'
  | _ => '9'

/-- Decimal rendering of a natural number (`strconv.Itoa`). -/
def itoa (n : Nat) : List Char :=
  if h : n < 10 then [digitChar n]
  else itoa (n / 10) ++ [digitChar (n % 10)]
decreasing_by exact Nat.div_lt_self (Nat.lt_of_lt_of_le (by decide) (Nat.le_of_not_lt h)) (by decide)

/-- Character-level worker of `q`: replace each `?` by `$` followed by
the running occurrence count, starting the count after `n` previous
occurrences. -/
def qChars (n : Nat) : List Char → List Char
  | [] => []
  | c :: cs =>
    if c = '?' then '$' :: itoa (n + 1) ++ qChars (n + 1) cs
    else c :: qChars n cs

/-- The placeholder renderer `q`. -/
def q (sql : String) : String := ⟨qChars 0 sql.data⟩

/-- Number of `?` placeholders in a character list. -/
def countQm (cs : List Char) : Nat := (cs.filter (fun c => c = '?')).length

/-! ## Error classification (`dialect.TranslateErr`, `dialect.ErrCode`) -/

/-- A Go `error` value reaching the dialect: either a `*pq.Error`
carrying a PostgreSQL error code, or any other error carrying only its
`Error()` text. -/
inductive GoError where
  | pqError (code : String) (message : String)
  | otherError (message : String)
deriving DecidableEq, Repr

/-- Result of `dialect.TranslateErr`: either the semantic
`server.ErrKeyExists`, or the original error passed through. -/
inductive TranslatedError where
  | keyExists
  | passthrough (e : GoError)
deriving DecidableEq, Repr

/-- `dialect.TranslateErr`: a `*pq.Error` with code `23505` becomes
`server.ErrKeyExists`; every other error is returned unchanged. -/
def translateErr (e : GoError) : TranslatedError :=
  match e with
  | .pqError code msg =>
    if code = "23505" then .keyExists else .passthrough (.pqError code msg)
  | .otherError msg => .passthrough (.otherError msg)

/-- `dialect.ErrCode`: `""` for `nil`, the native code for a
`*pq.Error`, the `Error()` text otherwise. -/
def errCode (e : Option GoError) : String :=
  match e with
  | none => ""
  | some (.pqError code _) => code
  | some (.otherError msg) => msg

/-! ## Database bootstrap (`createDBIfNotExist`)

```go
err = db.Ping()
if _, ok := err.(*pq.Error); !ok { return err }
if err := err.(*pq.Error); err.Code != "42P04" {
  if err.Code != "3D000" { return err }
  u.Path = "/postgres"
  ...
  stmt := createDB + dbName + ";"
  _, err = db.Exec(stmt)
  ...
}
return nil
```
with `createDB = "CREATE DATABASE %s;"`. -/

/-- The `createDB` template constant of the driver. -/
def createDB : String := "CREATE DATABASE %s;"

/-- Outcome of the `db.Ping()` probe of the target database. -/
inductive PingResult where
  | ok
  | pqErr (code : String) (message : String)
  | otherErr (message : String)
deriving DecidableEq, Repr

/-- What the bootstrap routine does after the ping. -/
inductive BootstrapAction where
  | noStatement
  | execOnAdminDB (adminPath : String) (stmt : String)
deriving DecidableEq, Repr

/-- Result of `createDBIfNotExist`. -/
inductive BootstrapResult where
  | success (act : BootstrapAction)
  | failure (e : GoError)
deriving DecidableEq, Repr

/-- The decision logic of `createDBIfNotExist`, as a function of the
target database name and the ping outcome. -/
def createDBIfNotExist (dbName : String) (ping : PingResult) : BootstrapResult :=
  match ping with
  | .ok => .success .noStatement
  | .otherErr msg => .failure (.otherError msg)
  | .pqErr code msg =>
    if code = "42P04" then .success .noStatement
    else if code = "3D000" then
      .success (.execOnAdminDB "/postgres" (createDB ++ dbName ++ ";"))
    else .failure (.pqError code msg)

/-! ## Concrete states used as witnesses

The scenario of spec §8: key `"a"` created at revision 1, key `"b"`
created at revision 2, key `"a"` tombstoned at revision 3 with
`prev_revision = 1`. -/

/-- Revision 1: creation of key `"a"`. -/
def aRow1 : Row := ⟨1, "a", 1, 0, 0, 0, 0, "va", ""⟩

/-- Revision 2: creation of key `"b"`. -/
def bRow2 : Row := ⟨2, "b", 1, 0, 0, 0, 0, "vb", ""⟩

/-- Revision 3: tombstone of key `"a"`, superseding revision 1. -/
def aTomb3 : Row := ⟨3, "a", 0, 1, 1, 1, 0, "", "va"⟩

/-- The §8 scenario log. -/
def scenarioLog : List Row := [aRow1, bRow2, aTomb3]

/-- A sentinel boundary-marker row recording compaction boundary 3. -/
def sentRow : Row := ⟨4, "compact_rev_key", 0, 0, 0, 3, 0, "", ""⟩

/-- A log carrying a live key and the sentinel row. -/
def sentLog : List Row := [aRow1, sentRow]

/-! ## Supporting lemmas -/

theorem argmaxId_isSome (a : Row) (as : List Row) :
    ∃ r, argmaxId (a :: as) = some r := by
  simp only [argmaxId]
  cases argmaxId as with
  | none => exact ⟨a, rfl⟩
  | some b =>
    by_cases h : b.id ≤ a.id
    · exact ⟨a, if_pos h⟩
    · exact ⟨b, if_neg h⟩

theorem argmaxId_eq_none {l : List Row} : argmaxId l = none ↔ l = [] := by
  cases l with
  | nil => simp [argmaxId]
  | cons a as =>
    constructor
    · intro h
      obtain ⟨r, hr⟩ := argmaxId_isSome a as
      rw [hr] at h
      cases h
    · intro h
      simp at h

theorem argmaxId_mem_le {l : List Row} {r : Row} (h : argmaxId l = some r) :
    r ∈ l ∧ ∀ x ∈ l, x.id ≤ r.id := by
  induction l generalizing r with
  | nil => simp [argmaxId] at h
  | cons a as ih =>
    simp only [argmaxId] at h
    cases hm : argmaxId as with
    | none =>
      rw [hm] at h
      have has : as = [] := argmaxId_eq_none.mp hm
      cases h
      subst has
      exact ⟨List.mem_singleton_self a, by simp⟩
    | some b =>
      rw [hm] at h
      dsimp only at h
      obtain ⟨hbmem, hbmax⟩ := ih hm
      by_cases hba : b.id ≤ a.id
      · rw [if_pos hba] at h
        cases h
        refine ⟨List.mem_cons_self a as, ?_⟩
        intro x hx
        rcases List.mem_cons.mp hx with hx | hx
        · subst hx; exact le_refl _
        · exact le_trans (hbmax x hx) hba
      · rw [if_neg hba] at h
        cases h
        refine ⟨List.mem_cons_of_mem a hbmem, ?_⟩
        intro x hx
        rcases List.mem_cons.mp hx with hx | hx
        · subst hx; exact le_of_not_le hba
        · exact hbmax x hx

theorem bestForName_spec {rows : List Row} {n : String} {r : Row}
    (h : bestForName rows n = some r) :
    r ∈ rows ∧ r.name = n ∧ ∀ x ∈ rows, x.name = n → x.id ≤ r.id := by
  obtain ⟨hmem, hmax⟩ := argmaxId_mem_le h
  have hm := List.mem_filter.mp hmem
  refine ⟨hm.1, by simpa using hm.2, ?_⟩
  intro x hx hxn
  exact hmax x (List.mem_filter.mpr ⟨hx, by simp [hxn]⟩)

theorem bestForName_isSome {rows : List Row} {n : String} {x : Row}
    (hx : x ∈ rows) (hn : x.name = n) : ∃ r, bestForName rows n = some r := by
  unfold bestForName
  cases h : argmaxId (rows.filter fun r => r.name == n) with
  | some r => exact ⟨r, rfl⟩
  | none =>
    exfalso
    have hmem : x ∈ rows.filter (fun r => r.name == n) :=
      List.mem_filter.mpr ⟨hx, by simp [hn]⟩
    rw [argmaxId_eq_none.mp h] at hmem
    exact List.not_mem_nil x hmem

theorem mem_insertStr {a s : String} {l : List String} :
    a ∈ insertStr s l ↔ a = s ∨ a ∈ l := by
  induction l with
  | nil => simp [insertStr]
  | cons t ts ih =>
    simp only [insertStr]
    split
    · simp [List.mem_cons]
    · simp only [List.mem_cons, ih]
      tauto

theorem mem_sortStrs {a : String} {l : List String} :
    a ∈ sortStrs l ↔ a ∈ l := by
  induction l with
  | nil => simp [sortStrs]
  | cons s ss ih => simp [sortStrs, mem_insertStr, ih]

theorem nodup_insertStr {s : String} {l : List String} (hs : s ∉ l)
    (h : l.Nodup) : (insertStr s l).Nodup := by
  induction l with
  | nil => simp [insertStr]
  | cons t ts ih =>
    simp only [insertStr]
    split
    · exact List.nodup_cons.mpr ⟨hs, h⟩
    · have hnd := List.nodup_cons.mp h
      have hs' : s ∉ ts := fun hm => hs (List.mem_cons_of_mem _ hm)
      refine List.nodup_cons.mpr ⟨?_, ih hs' hnd.2⟩
      intro hm
      rcases mem_insertStr.mp hm with h1 | h1
      · exact hs (by simp [h1])
      · exact hnd.1 h1

theorem nodup_sortStrs {l : List String} (h : l.Nodup) : (sortStrs l).Nodup := by
  induction l with
  | nil => simp [sortStrs]
  | cons s ss ih =>
    have h' := List.nodup_cons.mp h
    exact nodup_insertStr (fun hm => h'.1 (mem_sortStrs.mp hm)) (ih h'.2)

theorem mem_distinctOn {rows : List Row} {r : Row}
    (h : r ∈ distinctOnNameMaxId rows) :
    r ∈ rows ∧ ∀ x ∈ rows, x.name = r.name → x.id ≤ r.id := by
  unfold distinctOnNameMaxId at h
  rcases List.mem_filterMap.mp h with ⟨n, _, hb⟩
  obtain ⟨h1, h2, h3⟩ := bestForName_spec hb
  exact ⟨h1, fun x hx hxn => h3 x hx (hxn.trans h2)⟩

theorem distinctOn_complete {rows : List Row} {x : Row} (hx : x ∈ rows) :
    ∃ r ∈ distinctOnNameMaxId rows, r.name = x.name := by
  obtain ⟨r, hr⟩ := bestForName_isSome hx rfl
  refine ⟨r, ?_, (bestForName_spec hr).2.1⟩
  apply List.mem_filterMap.mpr
  refine ⟨x.name, ?_, hr⟩
  rw [mem_sortStrs, List.mem_dedup]
  exact List.mem_map_of_mem Row.name hx

theorem filterMap_best_names_sublist (rows : List Row) (ns : List String) :
    ((ns.filterMap (bestForName rows)).map Row.name).Sublist ns := by
  induction ns with
  | nil => simp
  | cons n ns ih =>
    simp only [List.filterMap_cons]
    cases h : bestForName rows n with
    | none => exact ih.cons n
    | some r =>
      simp only [List.map_cons]
      rw [(bestForName_spec h).2.1]
      exact ih.cons₂ n

theorem nodup_names_distinctOn (rows : List Row) :
    ((distinctOnNameMaxId rows).map Row.name).Nodup :=
  (filterMap_best_names_sublist rows _).nodup
    (nodup_sortStrs (List.nodup_dedup _))

theorem maxPrevOpt_ne_none {l : List Row} {s : Row} (hs : s ∈ l) :
    maxPrevOpt l ≠ none := by
  cases l with
  | nil => exact absurd hs (List.not_mem_nil s)
  | cons a as =>
    simp only [maxPrevOpt]
    cases maxPrevOpt as <;> simp

theorem maxPrevOpt_const {l : List Row} {s : Row} (hall : ∀ x ∈ l, x = s) :
    maxPrevOpt l = none ∨ maxPrevOpt l = some s.prev_revision := by
  induction l with
  | nil => exact Or.inl rfl
  | cons a as ih =>
    have ha : a = s := hall a (List.mem_cons_self a as)
    have ih' := ih (fun x hx => hall x (List.mem_cons_of_mem a hx))
    simp only [maxPrevOpt]
    rcases ih' with h | h <;> rw [h] <;> subst ha
    · exact Or.inr rfl
    · exact Or.inr (by simp)

theorem countQm_cons_qm (cs : List Char) : countQm ('?' :: cs) = countQm cs + 1 := by
  simp [countQm]

theorem countQm_cons_ne {c : Char} (h : c ≠ '?') (cs : List Char) :
    countQm (c :: cs) = countQm cs := by
  simp [countQm, h]

theorem countQm_append (l1 l2 : List Char) :
    countQm (l1 ++ l2) = countQm l1 + countQm l2 := by
  simp [countQm]

theorem digitChar_ne_qm (d : Nat) : digitChar d ≠ '?' := by
  unfold digitChar
  split <;> decide

theorem countQm_itoa (m : Nat) : countQm (itoa m) = 0 := by
  induction m using Nat.strong_induction_on with
  | _ m ih =>
    rw [itoa]
    split
    · simp [countQm, digitChar_ne_qm]
    · rename_i h
      rw [countQm_append,
        ih (m / 10) (Nat.div_lt_self (by omega) (by decide))]
      simp [countQm, digitChar_ne_qm]

theorem qChars_cons_qm (n : Nat) (cs : List Char) :
    qChars n ('?' :: cs) = '$' :: itoa (n + 1) ++ qChars (n + 1) cs := by
  simp [qChars]

theorem qChars_cons_ne {c : Char} (h : c ≠ '?') (n : Nat) (cs : List Char) :
    qChars n (c :: cs) = c :: qChars n cs := by
  simp [qChars, h]

theorem qChars_append (xs : List Char) : ∀ (n : Nat) (ys : List Char),
    qChars n (xs ++ ys) = qChars n xs ++ qChars (n + countQm xs) ys := by
  induction xs with
  | nil => intro n ys; simp [qChars, countQm]
  | cons c cs ih =>
    intro n ys
    by_cases hc : c = '?'
    · subst hc
      rw [List.cons_append, qChars_cons_qm, qChars_cons_qm, ih, countQm_cons_qm,
        show n + (countQm cs + 1) = n + 1 + countQm cs by omega]
      simp [List.append_assoc]
    · rw [List.cons_append, qChars_cons_ne hc, qChars_cons_ne hc, ih,
        countQm_cons_ne hc]
      simp

theorem countQm_qChars (cs : List Char) : ∀ n : Nat, countQm (qChars n cs) = 0 := by
  induction cs with
  | nil => intro n; simp [qChars, countQm]
  | cons c cs ih =>
    intro n
    by_cases hc : c = '?'
    · subst hc
      rw [qChars_cons_qm, countQm_append,
        countQm_cons_ne (show ('$' : Char) ≠ '?' by decide),
        countQm_itoa, ih]
    · rw [qChars_cons_ne hc, countQm_cons_ne hc, ih]

theorem qChars_of_no_qm {cs : List Char} (h : countQm cs = 0) :
    ∀ n : Nat, qChars n cs = cs := by
  induction cs with
  | nil => intro n; simp [qChars]
  | cons c cs ih =>
    intro n
    by_cases hc : c = '?'
    · subst hc
      rw [countQm_cons_qm] at h
      cases h
    · rw [countQm_cons_ne hc] at h
      rw [qChars_cons_ne hc, ih h]

/-! ## Claim theorems -/

/-- C1: starting from the §8 scenario log (key `"a"` created at revision
1, key `"b"` created at revision 2, key `"a"` tombstoned at revision 3
with `prev_revision = 1`, for arbitrary payloads), `compact 3` deletes
exactly the rows with ids 1 and 3 and leaves the row with id 2, and a
subsequent `current("%")` still returns key `"b"` at revision 2. -/
theorem c1_spec8_compaction (cr1 cr2 cr3 l1 l2 l3 : Nat) (v1 v2 v3 o1 o2 o3 : String) :
    compact 3
        [⟨1, "a", 1, 0, cr1, 0, l1, v1, o1⟩, ⟨2, "b", 1, 0, cr2, 0, l2, v2, o2⟩,
          ⟨3, "a", 0, 1, cr3, 1, l3, v3, o3⟩] =
      [⟨2, "b", 1, 0, cr2, 0, l2, v2, o2⟩] ∧
    getCurrent
        (compact 3
          [⟨1, "a", 1, 0, cr1, 0, l1, v1, o1⟩, ⟨2, "b", 1, 0, cr2, 0, l2, v2, o2⟩,
            ⟨3, "a", 0, 1, cr3, 1, l3, v3, o3⟩]) "%" false =
      ⟨some 2, none, [⟨2, "b", 1, 0, cr2, 0, l2, v2, o2⟩]⟩ :=
  ⟨rfl, rfl⟩

/-- C2: under the data-model invariants (distinct ids; `prev_revision`
pointers stay within the same key and point to strictly earlier
revisions), `CompactSQL` never deletes a row that is the current
revision of a live key (`deleted = 0` and no other row of the same key
supersedes it). -/
theorem c2_compact_preserves_current_live (log : List Row) (R : Nat) (r : Row)
    (hmem : r ∈ log) (hlive : r.deleted = 0)
    (hids : ∀ a ∈ log, ∀ b ∈ log, a.id = b.id → a = b)
    (hchain : ∀ kp ∈ log, ∀ x ∈ log, kp.prev_revision ≠ 0 → kp.prev_revision = x.id →
      kp.name = x.name ∧ x.id < kp.id)
    (hcur : ∀ k ∈ log, k.name = r.name → k.prev_revision = r.id → k = r) :
    r ∈ compact R log := by
  refine List.mem_filter.mpr ⟨hmem, ?_⟩
  cases hks : ksContains log R r.id with
  | false => simp
  | true =>
    exfalso
    rw [ksContains, Bool.or_eq_true] at hks
    rcases hks with h1 | h1
    · rw [List.any_eq_true] at h1
      obtain ⟨kp, hkp, hc⟩ := h1
      simp only [Bool.and_eq_true, bne_iff_ne, ne_eq, decide_eq_true_eq,
        beq_iff_eq] at hc
      obtain ⟨⟨⟨hname, hprev0⟩, hle⟩, hpr⟩ := hc
      obtain ⟨hnm, hlt⟩ := hchain kp hkp r hmem hprev0 hpr
      have hk := hcur kp hkp hnm hpr
      rw [hk] at hlt
      exact lt_irrefl _ hlt
    · rw [List.any_eq_true] at h1
      obtain ⟨kd, hkd, hc⟩ := h1
      simp only [Bool.and_eq_true, bne_iff_ne, ne_eq, decide_eq_true_eq,
        beq_iff_eq] at hc
      obtain ⟨⟨hdel, hle⟩, hid⟩ := hc
      rw [hids kd hkd r hmem hid] at hdel
      exact hdel hlive

/-- Witness for C2: in the §8 scenario, the live current row of key
`"b"` survives `compact 3`. -/
theorem c2_compact_preserves_current_live_check :
    (bRow2 ∈ scenarioLog ∧ bRow2.deleted = 0 ∧
      (∀ a ∈ scenarioLog, ∀ b ∈ scenarioLog, a.id = b.id → a = b)) ∧
    bRow2 ∈ compact 3 scenarioLog :=
  ⟨⟨by decide, by decide, by decide⟩,
   c2_compact_preserves_current_live scenarioLog 3 bRow2 (by decide) (by decide)
     (by decide) (by decide) (by decide)⟩

/-- C3: evaluation of both list queries at the §8 scenario.  The stored
procedure (`getCurrent`, driving `GetCurrentSQL`) with
`include_deleted = false` returns key `"a"` at revision 1 as well as
`"b"` at revision 2 — it applies the tombstone filter BEFORE selecting
the per-key latest revision — whereas the upstream inline `listSQL`
variant in the same file returns only `"b"` at revision 2.  With
`include_deleted = true` the stored procedure returns `"a"` at
revision 3 (deleted) and `"b"` at revision 2 as the claim states. -/
theorem c3_current_include_deleted_eval :
    (getCurrent scenarioLog "%" false).rows = [aRow1, bRow2] ∧
    (getCurrent scenarioLog "%" false).rows ≠ [bRow2] ∧
    (getCurrent scenarioLog "%" true).rows = [aTomb3, bRow2] ∧
    (listSQLQuery scenarioLog "%" 2147483647 false).rows = [bRow2] :=
  ⟨by decide, by decide, by decide, by decide⟩

/-- C4: every row returned by the as-of query (`ListRevisionStartSQL`,
i.e. `list_from_kine` at bound `M`) is a row of the log that satisfies
the query filter, has `id ≤ M`, and has the greatest `id` among the
filter-satisfying rows of its key; moreover every filter-satisfying key
is represented, and each key appears at most once. -/
theorem c4_asof_returns_per_key_max (log : List Row) (pat : String) (M : Nat)
    (incl : Bool) (r : Row)
    (hr : r ∈ (listRevisionStart log pat M incl).rows) :
    (r ∈ log ∧ lfkPred pat none M incl r = true ∧ r.id ≤ M ∧
      log.all (fun x => !(lfkPred pat none M incl x && x.name == r.name) ||
        decide (x.id ≤ r.id)) = true) ∧
    log.all (fun x => !(lfkPred pat none M incl x) ||
      (listRevisionStart log pat M incl).rows.any (fun y => y.name == x.name)) = true ∧
    ((listRevisionStart log pat M incl).rows.map Row.name).Nodup := by
  have hr' : r ∈ distinctOnNameMaxId (log.filter (lfkPred pat none M incl)) := hr
  obtain ⟨hmem, hmax⟩ := mem_distinctOn hr'
  have hmf := List.mem_filter.mp hmem
  refine ⟨⟨hmf.1, hmf.2, ?_, ?_⟩, ?_, ?_⟩
  · have h3 := hmf.2
    simp only [lfkPred, Bool.and_eq_true, decide_eq_true_eq] at h3
    exact h3.1.2
  · rw [List.all_eq_true]
    intro x hx
    cases hc : (lfkPred pat none M incl x && x.name == r.name) with
    | false => simp
    | true =>
      simp only [Bool.not_true, Bool.false_or, decide_eq_true_eq]
      have hcc := hc
      simp only [Bool.and_eq_true] at hcc
      exact hmax x (List.mem_filter.mpr ⟨hx, hcc.1⟩) (by simpa using hcc.2)
  · rw [List.all_eq_true]
    intro x hx
    cases hq : lfkPred pat none M incl x with
    | false => simp
    | true =>
      simp only [Bool.not_true, Bool.false_or]
      obtain ⟨y, hy, hyn⟩ := distinctOn_complete (List.mem_filter.mpr ⟨hx, hq⟩)
      rw [List.any_eq_true]
      exact ⟨y, hy, by simp [hyn]⟩
  · exact nodup_names_distinctOn _

/-- Witness for C4: the tombstone of `"a"` is the per-key maximum
returned at bound 3 with `include_deleted = true` in the §8 scenario. -/
theorem c4_asof_returns_per_key_max_check :
    aTomb3 ∈ (listRevisionStart scenarioLog "%" 3 true).rows ∧
    aTomb3 ∈ scenarioLog ∧ aTomb3.id ≤ 3 :=
  ⟨by decide,
   ((c4_asof_returns_per_key_max scenarioLog "%" 3 true aTomb3 (by decide)).1).1,
   ((c4_asof_returns_per_key_max scenarioLog "%" 3 true aTomb3 (by decide)).1).2.2.1⟩

/-- C5: the placeholder renderer `q` replaces the i-th `?` (counted
left to right from 1) with `$i` — the occurrence preceded by a prefix
containing `k` question marks becomes `$(k+1)`, prefix and suffix being
rendered with the matching counters — leaves `?`-free text unchanged,
and is idempotent. -/
theorem c5_q_positional_rendering_idempotent (s : String) (xs ys zs : List Char)
    (n : Nat) (hz : countQm zs = 0) :
    q (q s) = q s ∧
    qChars 0 (xs ++ '?' :: ys) =
      qChars 0 xs ++ '$' :: itoa (countQm xs + 1) ++ qChars (countQm xs + 1) ys ∧
    qChars n zs = zs := by
  refine ⟨?_, ?_, qChars_of_no_qm hz n⟩
  · show (⟨qChars 0 (qChars 0 s.data)⟩ : String) = ⟨qChars 0 s.data⟩
    rw [qChars_of_no_qm (countQm_qChars s.data 0)]
  · rw [qChars_append, qChars_cons_qm]
    simp [List.append_assoc]

/-- Witness for C5 at the template `"x?"`. -/
theorem c5_q_positional_rendering_idempotent_check :
    countQm ['a'] = 0 ∧
    (q (q "x?") = q "x?" ∧
     qChars 0 (['x', '?'] ++ '?' :: []) =
       qChars 0 ['x', '?'] ++ '$' :: itoa (countQm ['x', '?'] + 1) ++
         qChars (countQm ['x', '?'] + 1) [] ∧
     qChars 2 ['a'] = ['a']) :=
  ⟨by decide, c5_q_positional_rendering_idempotent "x?" ['x', '?'] [] ['a'] 2 (by decide)⟩

/-- C6: `TranslateErr` yields the semantic key-exists condition exactly
for `*pq.Error` values with code `23505` and passes every other error
through unchanged; `ErrCode` yields `""` for `nil`, the native code for
a `*pq.Error`, and the error text otherwise. -/
theorem c6_translate_err_classification :
    (∀ e, translateErr e = TranslatedError.keyExists ↔
      ∃ m, e = GoError.pqError "23505" m) ∧
    (∀ e, (∃ m, e = GoError.pqError "23505" m) ∨
      translateErr e = TranslatedError.passthrough e) ∧
    errCode none = "" ∧
    (∀ c m, errCode (some (GoError.pqError c m)) = c) ∧
    (∀ m, errCode (some (GoError.otherError m)) = m) := by
  refine ⟨?_, ?_, rfl, fun c m => rfl, fun m => rfl⟩
  · intro e
    cases e with
    | pqError c m =>
      by_cases hc : c = "23505"
      · subst hc
        simp [translateErr]
      · simp [translateErr, hc]
    | otherError m => simp [translateErr]
  · intro e
    cases e with
    | pqError c m =>
      by_cases hc : c = "23505"
      · exact Or.inl ⟨m, by rw [hc]⟩
      · exact Or.inr (by simp [translateErr, hc])
    | otherError m => exact Or.inr rfl

/-- C7: evaluation of `createDBIfNotExist`.  On the database-absent code
`3D000` it does go to the administrative database `/postgres`, but the
statement it issues is `CREATE DATABASE %s;kubernetes;` — the
`createDB` constant `"CREATE DATABASE %s;"` is concatenated, not
formatted — which differs from the claimed
`CREATE DATABASE kubernetes;`.  The `42P04` (duplicate database) and
passthrough branches behave as claimed. -/
theorem c7_bootstrap_creates_malformed_statement :
    createDBIfNotExist "kubernetes" (.pqErr "3D000" "database kubernetes does not exist") =
      .success (.execOnAdminDB "/postgres" "CREATE DATABASE %s;kubernetes;") ∧
    "CREATE DATABASE %s;kubernetes;" ≠ "CREATE DATABASE kubernetes;" ∧
    createDBIfNotExist "kubernetes" (.pqErr "42P04" "duplicate database") =
      .success .noStatement ∧
    createDBIfNotExist "kubernetes" (.pqErr "57P03" "the database system is starting up") =
      .failure (.pqError "57P03" "the database system is starting up") ∧
    createDBIfNotExist "kubernetes" (.otherErr "connection refused") =
      .failure (.otherError "connection refused") ∧
    createDBIfNotExist "kubernetes" .ok = .success .noStatement := by
  decide

/-- C8: for every log whose ids fit the `INTEGER` column range,
`CountSQL` returns the log's maximum id together with exactly the number
of rows that the current query with the same pattern and flag (and no
limit) returns. -/
theorem c8_count_matches_current_list (log : List Row) (pat : String) (incl : Bool)
    (hbound : ∀ r ∈ log, r.id ≤ 2147483647) :
    countQuery log pat incl = (maxIdOpt log, (getCurrent log pat incl).rows.length) := by
  have hf : log.filter (countPred pat incl) =
      log.filter (lfkPred pat none 2147483647 incl) := by
    apply List.filter_congr
    intro x hx
    have hb := hbound x hx
    simp [countPred, lfkPred, hb]
  show (maxIdOpt log, (distinctOnNameMaxId (log.filter (countPred pat incl))).length) =
    (maxIdOpt log, (distinctOnNameMaxId (log.filter (lfkPred pat none 2147483647 incl))).length)
  rw [hf]

/-- Witness for C8 at the §8 scenario. -/
theorem c8_count_matches_current_list_check :
    (∀ r ∈ scenarioLog, r.id ≤ 2147483647) ∧
    countQuery scenarioLog "%" false =
      (maxIdOpt scenarioLog, (getCurrent scenarioLog "%" false).rows.length) :=
  ⟨by decide, c8_count_matches_current_list scenarioLog "%" false (by decide)⟩

/-- C9: every `list_from_kine` invocation (hence every current/as-of
query, limited or not) and the upstream `listSQL` variant return as
watermarks the log's maximum id and, when the log holds exactly one
sentinel row named `compact_rev_key`, that row's `prev_revision` (the
persisted compaction boundary). -/
theorem c9_list_query_watermarks (log : List Row) (pat : String)
    (minKey : Option String) (M : Nat) (incl : Bool) (lim : Option Nat) (s : Row)
    (hs : s ∈ log) (hname : s.name = compactRevKey)
    (huniq : ∀ x ∈ log, x.name = compactRevKey → x = s) :
    (listFromKine log pat minKey M incl lim).currentId = maxIdOpt log ∧
    (listFromKine log pat minKey M incl lim).compactRevId = some s.prev_revision ∧
    (listSQLQuery log pat M incl).currentId = maxIdOpt log ∧
    (listSQLQuery log pat M incl).compactRevId = some s.prev_revision := by
  have hmem : s ∈ log.filter (fun r => r.name == compactRevKey) :=
    List.mem_filter.mpr ⟨hs, by simp [hname]⟩
  have hall : ∀ x ∈ log.filter (fun r => r.name == compactRevKey), x = s := by
    intro x hx
    have hx' := List.mem_filter.mp hx
    exact huniq x hx'.1 (by simpa using hx'.2)
  have hcro : compactRevOpt log = some s.prev_revision := by
    rcases maxPrevOpt_const hall with h | h
    · exact absurd h (maxPrevOpt_ne_none hmem)
    · exact h
  exact ⟨rfl, hcro, rfl, hcro⟩

/-- Witness for C9 on a log holding a live key and the sentinel row with
boundary 3. -/
theorem c9_list_query_watermarks_check :
    (sentRow ∈ sentLog ∧ sentRow.name = compactRevKey) ∧
    (listFromKine sentLog "%" none 10 false none).currentId = maxIdOpt sentLog ∧
    (listFromKine sentLog "%" none 10 false none).compactRevId =
      some sentRow.prev_revision :=
  ⟨⟨by decide, by decide⟩,
   (c9_list_query_watermarks sentLog "%" none 10 false none sentRow (by decide)
     (by decide) (by decide)).1,
   (c9_list_query_watermarks sentLog "%" none 10 false none sentRow (by decide)
     (by decide) (by decide)).2.1⟩

/-- C10: `GetCurrentSQL` is `list_from_kine` with the revision bound
fixed at `2147483647` (so `getCurrent` coincides with the as-of query at
that bound), and consequently no returned row ever has an id above
`2147483647`. -/
theorem c10_current_is_asof_int32_max (log : List Row) (pat : String) (incl : Bool) :
    getCurrent log pat incl = listRevisionStart log pat 2147483647 incl ∧
    (getCurrent log pat incl).rows.all (fun r => decide (r.id ≤ 2147483647)) = true := by
  refine ⟨rfl, ?_⟩
  rw [List.all_eq_true]
  intro r hr
  have h1 : r ∈ distinctOnNameMaxId (log.filter (lfkPred pat none 2147483647 incl)) := hr
  have h2 := List.mem_filter.mp (mem_distinctOn h1).1
  have h3 := h2.2
  simp only [lfkPred, Bool.and_eq_true, decide_eq_true_eq] at h3
  simp only [decide_eq_true_eq]
  exact h3.1.2

end Kine
